import Mathlib

/-!
Verification of the pattern-repository core of grimoire-mcp
(`src/patterns.rs`) against its natural-language specification.

Strings of the Rust program are embedded as `List Char`; every Rust
string operation used by the program is given an executable model below,
with byte-level behaviour (`len`, slicing) made explicit where the
program depends on it.
-/

set_option maxRecDepth 8192

deriving instance DecidableEq for Except

namespace Grimoire

/- ### String primitives -/

/-- Character list of a string literal, the embedding of Rust string data. -/
def lit (s : String) : List Char := s.data

/-- Models Rust `str::starts_with`: does `s` start with `p`? -/
def startsWithR : List Char → List Char → Bool
  | _, [] => true
  | [], _ :: _ => false
  | a :: as, b :: bs => a == b && startsWithR as bs

/-- Models Rust `str::contains` (substring occurrence anywhere in `s`). -/
def containsR (s pat : List Char) : Bool :=
  startsWithR s pat ||
    match s with
    | [] => false
    | _ :: t => containsR t pat

/-- Models Rust `str::strip_prefix`: drop the leading occurrence of `p`
from `s`, or fail. -/
def chopStart : List Char → List Char → Option (List Char)
  | s, [] => some s
  | [], _ :: _ => none
  | a :: as, b :: bs => if a = b then chopStart as bs else none

/-- Models Rust `str::splitn(2, sep)` in the case the program uses: split
`s` at the FIRST occurrence of `sep` into the part before and the part
after; `none` when `sep` (nonempty) does not occur. -/
def splitFirst (sep : List Char) : List Char → Option (List Char × List Char)
  | [] => if sep = [] then some ([], []) else none
  | c :: cs =>
    if startsWithR (c :: cs) sep then
      some ([], (c :: cs).drop sep.length)
    else
      (splitFirst sep cs).map (fun r => (c :: r.1, r.2))

/-- Split a character list at every occurrence of the single character
`sep` (models `str::split(sep)` for a one-character separator). -/
def splitOnChar (sep : Char) : List Char → List (List Char)
  | [] => [[]]
  | x :: xs =>
    match splitOnChar sep xs with
    | [] => [[]]
    | y :: ys => if x = sep then [] :: y :: ys else (x :: y) :: ys

/-- Drop leading and trailing space characters. -/
def trimSpaces (s : List Char) : List Char :=
  ((s.dropWhile (· = ' ')).reverse.dropWhile (· = ' ')).reverse

/-- Models Rust `str::trim` (leading and trailing whitespace removed). -/
def trimR (s : List Char) : List Char :=
  ((s.dropWhile Char.isWhitespace).reverse.dropWhile Char.isWhitespace).reverse

/-- Join a list of character lists with a separator (models `slice::join`). -/
def joinSep (sep : List Char) : List (List Char) → List Char
  | [] => []
  | [x] => x
  | x :: y :: ys => x ++ sep ++ joinSep sep (y :: ys)

/-- Map a fallible function over a list, failing when any element
fails (a collected iterator of options; `none` also models a panic
inside an iterator when the function's `none` does). -/
def mapOpt (f : α → Option β) : List α → Option (List β)
  | [] => some []
  | x :: xs =>
    match f x with
    | none => none
    | some y => (mapOpt f xs).map (y :: ·)

/-- UTF-8 byte length of a character list: the embedding of Rust
`str::len`, which counts bytes, not characters. -/
def utf8Len (s : List Char) : Nat := (s.map Char.utf8Size).sum

/-- Models taking the first `n` BYTES of a Rust string (`&s[..n]`):
returns `none` — a panic — when `n` does not fall on a character
boundary or exceeds the byte length. -/
def takeBytesR : Nat → List Char → Option (List Char)
  | 0, _ => some []
  | _ + 1, [] => none
  | n + 1, c :: cs =>
    if c.utf8Size ≤ n + 1 then
      (takeBytesR (n + 1 - c.utf8Size) cs).map (c :: ·)
    else
      none

/-- Models Rust `str::to_lowercase` as applied by this program. Exact on
ASCII, which is the only range where Lean's `Char.toLower` and Unicode
lowercasing are both exercised by the properties below; code points
without an ASCII uppercase form are left unchanged. -/
def toLowerR (s : List Char) : List Char := s.map Char.toLower

/-- Models Rust `char::is_alphanumeric` (Unicode Alphabetic or numeric).
Exact on all code points below U+0100: ASCII alphanumerics, the Latin-1
letters U+00AA, U+00B5, U+00BA, U+00C0–U+00FF minus the two operators
U+00D7 (×) and U+00F7 (÷), and the Latin-1 numeric characters ², ³, ¹,
¼, ½, ¾. Code points at or above U+0100 are conservatively reported
non-alphanumeric; no property below evaluates the function there. -/
def rustIsAlphanumeric (c : Char) : Bool :=
  c.isAlphanum ||
    (c.toNat = 0xAA || c.toNat = 0xB5 || c.toNat = 0xBA ||
      c.toNat = 0xB2 || c.toNat = 0xB3 || c.toNat = 0xB9 ||
      (0xBC ≤ c.toNat && c.toNat ≤ 0xBE) ||
      (0xC0 ≤ c.toNat && c.toNat ≤ 0xFF &&
        c.toNat ≠ 0xD7 && c.toNat ≠ 0xF7))

/- ### Data model (`Pattern`, `PatternMetadata`, requests, results) -/

/-- Embeds `PatternMetadata` from `src/patterns.rs`: `framework`,
`projects` and `tags` carry serde defaults (`None`, `[]`, `[]`). -/
structure PatternMetadata where
  pattern : List Char
  category : List Char
  framework : Option (List Char)
  projects : List (List Char)
  tags : List (List Char)
deriving DecidableEq, Repr

/-- Embeds `Pattern` from `src/patterns.rs`. -/
structure Pattern where
  metadata : PatternMetadata
  content : List Char
  filepath : List Char
deriving DecidableEq, Repr

/-- Embeds `PatternSearchRequest`: four optional criteria. -/
structure PatternSearchRequest where
  query : Option (List Char)
  category : Option (List Char)
  framework : Option (List Char)
  tag : Option (List Char)
deriving DecidableEq, Repr

/-- Embeds `CreatePatternRequest`. -/
structure CreatePatternRequest where
  patternName : List Char
  category : List Char
  framework : List Char
  projects : Option (List (List Char))
  tag : List (List Char)
  content : List Char
deriving DecidableEq, Repr

/-- Embeds `rmcp::ErrorData` as used by the program: the two
constructors it ever builds, `invalid_params` and `internal_error`. -/
inductive McpError where
  | invalidParams (msg : List Char)
  | internalError (msg : List Char)
deriving DecidableEq, Repr

/-- Embeds `CallToolResult::success(vec![Content::text(t)])`, the only
result shape the program builds. -/
inductive CallToolResult where
  | success (text : List Char)
deriving DecidableEq, Repr

/- ### Validation (`validate_pattern_name`) -/

/-- Character admitted by the validator's second rule: alphanumeric,
dash, or underscore. -/
def validChar (c : Char) : Bool :=
  rustIsAlphanumeric c || c = '-' || c = '_'

/-- Embeds `Patterns::validate_pattern_name`. Note `name.is_empty()`
and `name.len()` in the source measure UTF-8 BYTES, hence `utf8Len`. -/
def validatePatternName (name : List Char) : Except McpError Unit :=
  if name = [] || utf8Len name > 100 then
    Except.error (McpError.invalidParams (lit "Pattern must be 1-100 characters"))
  else if name.any (fun c => !validChar c) then
    Except.error (McpError.invalidParams
      (lit "Pattern name can only contain alphanumeric, dash and underscore characters"))
  else
    Except.ok ()

/- ### Query engine (`list_patterns`, `search_patterns`, `get_pattern`) -/

/-- Embeds `list_patterns`: one `- <name> (<category>)` line per record,
newline-joined, under the fixed `Available patterns:` heading. -/
def listPatterns (ps : List Pattern) : CallToolResult :=
  CallToolResult.success
    (lit "Available patterns:\n" ++
      joinSep (lit "\n")
        (ps.map (fun p =>
          lit "- " ++ p.metadata.pattern ++ lit " (" ++ p.metadata.category ++ lit ")")))

/-- The searchable text of a record inside `search_patterns`:
`format!("{} {}", p.metadata.pattern, p.content).to_lowercase()`. -/
def searchable (p : Pattern) : List Char :=
  toLowerR (p.metadata.pattern ++ lit " " ++ p.content)

/-- Embeds the filter closure of `search_patterns`: the conjunction of
the four `is_none_or` criteria. -/
def searchPred (req : PatternSearchRequest) (p : Pattern) : Bool :=
  (match req.category with
    | none => true
    | some c => p.metadata.category == c) &&
  (match req.framework with
    | none => true
    | some f => p.metadata.framework == some f) &&
  (match req.tag with
    | none => true
    | some t => p.metadata.tags.contains t) &&
  (match req.query with
    | none => true
    | some q => containsR (searchable p) (toLowerR q))

/-- The `results` vector of `search_patterns`. -/
def searchResults (ps : List Pattern) (req : PatternSearchRequest) : List Pattern :=
  ps.filter (searchPred req)

/-- Embeds the rendering of one search match:
`format!("**{}**\n{}", name, &p.content[..200.min(p.content.len())])`.
The slice takes the first `min 200 (utf8Len content)` BYTES; `none`
models the panic raised when that byte index splits a character. -/
def renderSearchItem (p : Pattern) : Option (List Char) :=
  (takeBytesR (min 200 (utf8Len p.content)) p.content).map
    (fun t => lit "**" ++ p.metadata.pattern ++ lit "**\n" ++ t)

/-- Embeds `search_patterns` end to end; `none` models a rendering
panic. -/
def searchPatterns (ps : List Pattern) (req : PatternSearchRequest) :
    Option CallToolResult :=
  let results := searchResults ps req
  if results = [] then
    some (CallToolResult.success (lit "No patterns found."))
  else
    (mapOpt renderSearchItem results).map
      (fun items => CallToolResult.success (joinSep (lit "\n\n") items))

/-- Embeds `get_pattern`: first record whose name equals the argument,
with a "not found" SUCCESS payload otherwise. -/
def getPattern (ps : List Pattern) (patternName : List Char) : CallToolResult :=
  match ps.find? (fun p => p.metadata.pattern == patternName) with
  | some p => CallToolResult.success p.content
  | none =>
    CallToolResult.success
      (lit "Pattern '" ++ patternName ++ lit "' not found.")

/- ### Record writer (`create_pattern` serialization) -/

/-- Embeds `projects_str`:
`projects.map(|p| format!("projects: [{}]\n", p.join(", "))).unwrap_or_default()`. -/
def projectsStr (projects : Option (List (List Char))) : List Char :=
  match projects with
  | some p => lit "projects: [" ++ joinSep (lit ", ") p ++ lit "]\n"
  | none => []

/-- Embeds `tags_str`: empty when the tag list is empty, otherwise a
`tags: [...]` line. -/
def tagsStr (tag : List (List Char)) : List Char :=
  if tag = [] then [] else lit "tags: [" ++ joinSep (lit ", ") tag ++ lit "]\n"

/-- Embeds the `pattern_content` format string of `create_pattern`: the
opening delimiter, the `pattern`, `category` and `framework` lines, the
projects and tags fragments, the closing delimiter, a blank line, the
content and a final newline. -/
def patternContent (patternName category framework : List Char)
    (projects : Option (List (List Char))) (tag : List (List Char))
    (content : List Char) : List Char :=
  lit "---\npattern: " ++ patternName ++
    lit "\ncategory: " ++ category ++
    lit "\nframework: " ++ framework ++ lit "\n" ++
    projectsStr projects ++ tagsStr tag ++
    lit "---\n\n" ++ content ++ lit "\n"

/- ### Record parser (`load_patterns`) -/

/-- A parsed YAML header value: empty (null), a plain scalar, or a flow
sequence `[...]`. -/
inductive YamlValue where
  | nullV
  | scalar (s : List Char)
  | listV (xs : List (List Char))
deriving DecidableEq, Repr

instance : Inhabited YamlValue := ⟨YamlValue.nullV⟩

/-- Modelled from the spec: the header block is "a structured key-value
document" (§4.1 step 3) read by the external `serde_yaml` dependency,
which is not part of this repository's sources. A value is trimmed of
surrounding spaces; an empty value is null; `[a, b]` is a flow sequence
whose elements are comma-separated and space-trimmed; anything else is
a plain scalar. -/
def parseYamlValue (raw : List Char) : Option YamlValue :=
  match trimSpaces raw with
  | [] => some YamlValue.nullV
  | c :: rest =>
    if c = '[' then
      match rest.getLast? with
      | some ']' =>
        let inner := rest.dropLast
        if trimSpaces inner = [] then some (YamlValue.listV [])
        else some (YamlValue.listV ((splitOnChar ',' inner).map trimSpaces))
      | _ => none
    else some (YamlValue.scalar (c :: rest))

/-- Modelled from the spec (§4.1 step 3): one `key: value` header line,
split at the first colon. -/
def parseYamlLine (line : List Char) : Option (List Char × YamlValue) :=
  match splitFirst (lit ":") line with
  | none => none
  | some (key, rest) => (parseYamlValue rest).map (fun v => (key, v))

/-- Modelled from the spec (§4.1 step 3): the header block as an
association list of key-value pairs, one per line. -/
def parseYamlDoc (header : List Char) :
    Option (List (List Char × YamlValue)) :=
  mapOpt parseYamlLine (splitOnChar '\n' header)

/-- Look up a header key (first occurrence). -/
def yamlLookup (kvs : List (List Char × YamlValue)) (key : List Char) :
    Option YamlValue :=
  (kvs.find? (fun kv => kv.1 == key)).map (·.2)

/-- A required string field: present and a plain scalar, else fail. -/
def yamlReqString (v : Option YamlValue) : Option (List Char) :=
  match v with
  | some (YamlValue.scalar s) => some s
  | _ => none

/-- An `Option<String>` field with a serde default: missing or null
gives `none`; a scalar gives `some`; a sequence is a type error. -/
def yamlOptString (v : Option YamlValue) : Option (Option (List Char)) :=
  match v with
  | none => some none
  | some YamlValue.nullV => some none
  | some (YamlValue.scalar s) => some (some s)
  | some (YamlValue.listV _) => none

/-- A `Vec<String>` field with a serde default: missing gives `[]`; a
flow sequence gives its elements; a scalar or null is a type error. -/
def yamlStringList (v : Option YamlValue) : Option (List (List Char)) :=
  match v with
  | none => some []
  | some (YamlValue.listV xs) => some xs
  | _ => none

/-- Modelled from the spec (§4.1 step 3, §6): deserialize the header
block into `PatternMetadata` — `pattern` and `category` required
strings, `framework` optional, `projects` and `tags` defaulting lists. -/
def parseYamlMetadata (header : List Char) : Option PatternMetadata := do
  let kvs ← parseYamlDoc header
  let pat ← yamlReqString (yamlLookup kvs (lit "pattern"))
  let cat ← yamlReqString (yamlLookup kvs (lit "category"))
  let fw ← yamlOptString (yamlLookup kvs (lit "framework"))
  let projects ← yamlStringList (yamlLookup kvs (lit "projects"))
  let tags ← yamlStringList (yamlLookup kvs (lit "tags"))
  pure ⟨pat, cat, fw, projects, tags⟩

/-- Embeds `Patterns::load_patterns` on the text of one document (the
file read itself is abstracted to that text): strip the opening
`---` line, split at the first `\n---\n`, trim the body, parse the
header. Every failure yields `none`. -/
def loadPattern (text : List Char) (path : List Char) : Option Pattern := do
  let rest ← chopStart text (lit "---\n")
  let (yaml, bodyRaw) ← splitFirst (lit "\n---\n") rest
  let body := trimR bodyRaw
  let metadata ← parseYamlMetadata yaml
  pure ⟨metadata, body, path⟩

/- ### Process state (`Patterns` + the disk) -/

/-- The state a running instance acts on: the immutable in-memory
collection held in `Patterns.patterns` and the pattern directory's
files as an association of file name to text. -/
structure ServerState where
  patterns : List Pattern
  disk : List (List Char × List Char)
deriving DecidableEq, Repr

/-- Embeds `create_pattern`: validate the name, serialize, write the
file. `writeOk` selects the outcome of `fs::write`; on failure the
error surfaces as `internal_error` and the state is untouched. The
handler takes `&self`, so the in-memory collection is returned as is
in every branch. -/
def createPattern (st : ServerState) (req : CreatePatternRequest)
    (writeOk : Bool) : Except McpError CallToolResult × ServerState :=
  match validatePatternName req.patternName with
  | Except.error e => (Except.error e, st)
  | Except.ok _ =>
    let doc := patternContent req.patternName req.category req.framework
      req.projects req.tag req.content
    let filePath := req.patternName ++ lit ".md"
    if writeOk then
      (Except.ok (CallToolResult.success
        (lit "Pattern '" ++ req.patternName ++ lit "' created at \x22" ++
          filePath ++ lit "\x22")),
       { st with disk := (filePath, doc) :: st.disk })
    else
      (Except.error (McpError.internalError
        (lit "Failed to create pattern")), st)

/-- One inbound tool call. -/
inductive Op where
  | list
  | search (req : PatternSearchRequest)
  | get (name : List Char)
  | create (req : CreatePatternRequest) (writeOk : Bool)

/-- State transition of one tool call. The three read handlers take
`&self` and perform no filesystem writes, so they leave the state
unchanged; `create_pattern` contributes its resulting state. -/
def stepState (st : ServerState) : Op → ServerState
  | Op.list => st
  | Op.search _ => st
  | Op.get _ => st
  | Op.create req writeOk => (createPattern st req writeOk).2

/- ### Spec-side definitions -/

/-- The validation rule as the spec words it: length between 1 and 100
CHARACTERS inclusive, and every character alphanumeric, dash or
underscore. -/
def specAcceptsName (name : List Char) : Prop :=
  1 ≤ name.length ∧ name.length ≤ 100 ∧ ∀ c ∈ name, validChar c = true

/-- The query criterion as the claim words it: the lowercase
concatenation of the record's name and content (no separator) contains
the lowercased query as a substring. -/
def specQueryMatches (q : List Char) (p : Pattern) : Prop :=
  containsR (toLowerR (p.metadata.pattern ++ p.content)) (toLowerR q) = true

/-- The per-record summary line the spec prescribes for List:
`- <name> (<category>)`. -/
def specSummaryLine (p : Pattern) : List Char :=
  lit "- " ++ p.metadata.pattern ++ lit " (" ++ p.metadata.category ++ lit ")"

/-- The header lines of a serialized document, as individual lines
without their trailing newlines. -/
def headerLines (patternName category framework : List Char)
    (projects : Option (List (List Char))) (tag : List (List Char)) :
    List (List Char) :=
  [lit "pattern: " ++ patternName,
   lit "category: " ++ category,
   lit "framework: " ++ framework] ++
  (match projects with
    | some p => [lit "projects: [" ++ joinSep (lit ", ") p ++ lit "]"]
    | none => []) ++
  (if tag = [] then []
   else [lit "tags: [" ++ joinSep (lit ", ") tag ++ lit "]"])

/-- A character that survives the YAML header round trip verbatim:
alphanumeric, dash, underscore, space or dot. Excludes newlines,
colons, brackets, commas and other YAML punctuation. -/
def plainChar (c : Char) : Bool :=
  rustIsAlphanumeric c || c = '-' || c = '_' || c = ' ' || c = '.'

/-- A plain single-line metadata value: nonempty, made of `plainChar`
characters, and not beginning or ending with a space. -/
def plainText (s : List Char) : Prop :=
  s ≠ [] ∧ (∀ c ∈ s, plainChar c = true) ∧
    s.head? ≠ some ' ' ∧ s.getLast? ≠ some ' '

instance (name : List Char) : Decidable (specAcceptsName name) := by
  unfold specAcceptsName; infer_instance

instance (s : List Char) : Decidable (plainText s) := by
  unfold plainText; infer_instance

instance (q : List Char) (p : Pattern) : Decidable (specQueryMatches q p) := by
  unfold specQueryMatches; infer_instance

/- ### Concrete records and inputs used in counterexamples and witnesses -/

/-- Content of 199 one-byte characters followed by the two-byte
character `é`: byte index 200 falls inside the encoding of `é`. -/
def panicContent : List Char := List.replicate 199 'a' ++ [Char.ofNat 0xE9]

/-- Content of 101 copies of the two-byte character `é`: 101 characters
(fewer than 200), 202 bytes. -/
def shortContent : List Char := List.replicate 101 (Char.ofNat 0xE9)

/-- A record whose content is `panicContent`. -/
def panicPattern : Pattern :=
  ⟨⟨lit "p", lit "c", none, [], []⟩, panicContent, lit "p.md"⟩

/-- A 51-character, 102-byte name made of the alphabetic character `é`. -/
def wideName : List Char := List.replicate 51 (Char.ofNat 0xE9)

/-- The spec's end-to-end example record. -/
def retryPattern : Pattern :=
  ⟨⟨lit "retry-backoff", lit "resilience", none, [], [lit "go", lit "retry"]⟩,
    lit "body", lit "retry-backoff.md"⟩

/-- A record named `a` with content `b`: its name-content concatenation
is `ab`, but the text searched by the code is `a b`. -/
def abPattern : Pattern :=
  ⟨⟨lit "a", lit "c", none, [], []⟩, lit "b", lit "ab.md"⟩

/-- A record whose content contains `axum handler` (spec §8 example). -/
def axumPattern : Pattern :=
  ⟨⟨lit "routing", lit "web", none, [], []⟩, lit "axum handler", lit "r.md"⟩

/-- A record with a different name, placed before `retryPattern` in the
collection used by the GetByName witness. -/
def otherPattern : Pattern :=
  ⟨⟨lit "other", lit "misc", none, [], []⟩, lit "other body", lit "o.md"⟩

/- ### Shared lemmas -/

theorem utf8Len_eq_zero_iff (s : List Char) : utf8Len s = 0 ↔ s = [] := by
  cases s with
  | nil => simp [utf8Len]
  | cons c cs =>
    simp only [utf8Len, List.map_cons, List.sum_cons, List.cons_ne_nil,
      iff_false]
    have := Char.utf8Size_pos c
    omega

/- ### C1: Search-result truncation -/

/-- C1: the spec requires Search-match rendering to take the first 200
CHARACTERS of content and never panic or split a multi-byte character,
with content shorter than 200 characters rendered in full. The code
slices the first `min 200 (byte length)` BYTES: on a content of 199
one-byte characters followed by the two-byte `é` the slice boundary
falls inside `é` and rendering panics (`none`), and on 101 copies of
`é` (101 characters, fewer than 200) it keeps 100 characters instead of
the full content. -/
theorem search_truncation_slices_bytes_and_panics :
    takeBytesR (min 200 (utf8Len panicContent)) panicContent = none ∧
    renderSearchItem panicPattern = none ∧
    panicContent.length = 200 ∧
    (takeBytesR (min 200 (utf8Len shortContent)) shortContent).map List.length
      = some 100 ∧
    shortContent.length = 101 ∧ shortContent.length < 200 := by
  decide

/- ### C2: name validation -/

/-- C2 (counterexample): the 51-character name `éé…é` satisfies the
claim's acceptance criterion — 1 ≤ 51 ≤ 100 characters, every character
alphanumeric — yet `validate_pattern_name` rejects it, because
`name.len()` in the code measures its 102 UTF-8 bytes against the
limit of 100. -/
theorem validate_name_char_count_counterexample :
    specAcceptsName wideName ∧
    wideName.length = 51 ∧
    validatePatternName wideName =
      Except.error (McpError.invalidParams
        (lit "Pattern must be 1-100 characters")) := by
  decide

/-- C2 (amended): validation accepts a name iff its UTF-8 BYTE length
is between 1 and 100 inclusive and every character is alphanumeric,
dash or underscore; every outcome is either acceptance or an
invalid-params validation error (never an unstructured error). -/
theorem validate_name_spec (name : List Char) :
    (validatePatternName name = Except.ok () ↔
      1 ≤ utf8Len name ∧ utf8Len name ≤ 100 ∧
        ∀ c ∈ name, validChar c = true) ∧
    (validatePatternName name = Except.ok () ∨
      ∃ msg, validatePatternName name =
        Except.error (McpError.invalidParams msg)) := by
  unfold validatePatternName
  constructor
  · split
    · rename_i h
      simp only [Bool.or_eq_true, decide_eq_true_eq] at h
      constructor
      · intro hc; cases hc
      · rintro ⟨h1, h2, -⟩
        rcases h with h | h
        · rw [h] at h1; simp [utf8Len] at h1
        · omega
    · rename_i h
      simp only [Bool.or_eq_true, decide_eq_true_eq, not_or] at h
      obtain ⟨hne, hle⟩ := h
      have hpos : 1 ≤ utf8Len name := by
        rcases Nat.eq_zero_or_pos (utf8Len name) with h0 | h0
        · exact absurd ((utf8Len_eq_zero_iff name).mp h0) hne
        · exact h0
      split
      · rename_i hbad
        simp only [List.any_eq_true, Bool.not_eq_true'] at hbad
        obtain ⟨c, hc, hcbad⟩ := hbad
        constructor
        · intro hok; cases hok
        · rintro ⟨-, -, hall⟩
          rw [hall c hc] at hcbad; cases hcbad
      · rename_i hgood
        simp only [List.any_eq_true, Bool.not_eq_true', not_exists,
          not_and] at hgood
        refine ⟨fun _ => ⟨hpos, by omega, ?_⟩, fun _ => rfl⟩
        intro c hc
        have := hgood c hc
        revert this
        cases validChar c <;> simp
  · split
    · exact Or.inr ⟨_, rfl⟩
    · split
      · exact Or.inr ⟨_, rfl⟩
      · exact Or.inl rfl

/- ### C6: serialized header shape -/

theorem lit_split_pat : lit "---\npattern: " = lit "---\n" ++ lit "pattern: " := rfl

theorem lit_split_cat : lit "\ncategory: " = lit "\n" ++ lit "category: " := rfl

theorem lit_split_fw : lit "\nframework: " = lit "\n" ++ lit "framework: " := rfl

theorem lit_split_brk : lit "]\n" = lit "]" ++ lit "\n" := rfl

/-- C6 (counterexample): with a supplied but EMPTY project list,
`create_pattern` still serializes a `projects: []` header line — the
code keys the line on the option being supplied (`projects.map(..)`),
not on the list being non-empty as the claim states. -/
theorem projects_line_empty_list_counterexample :
    patternContent (lit "n") (lit "c") (lit "f") (some []) [] (lit "x") =
      lit "---\npattern: n\ncategory: c\nframework: f\nprojects: []\n---\n\nx\n" ∧
    containsR (patternContent (lit "n") (lit "c") (lit "f") (some []) [] (lit "x"))
      (lit "projects: []") = true := by decide

/-- C6 (amended): the serialized document is the three-dash delimiter,
the header lines each followed by a newline, the closing delimiter, a
blank line and the raw content; the header always contains `pattern`,
`category` and `framework` lines, contains a `projects: [...]` line iff
a project list was SUPPLIED (even an empty one), and contains a
`tags: [...]` line iff the tag list is non-empty. -/
theorem create_serialization_shape (n c f : List Char)
    (pr : Option (List (List Char))) (tg : List (List Char)) (ct : List Char) :
    patternContent n c f pr tg ct =
      lit "---\n" ++
        List.flatten ((headerLines n c f pr tg).map (· ++ lit "\n")) ++
        lit "---\n\n" ++ ct ++ lit "\n" ∧
    (((headerLines n c f pr tg).any
        (fun l => startsWithR l (lit "projects:")) = true) ↔ pr ≠ none) ∧
    (((headerLines n c f pr tg).any
        (fun l => startsWithR l (lit "tags:")) = true) ↔ tg ≠ []) ∧
    (headerLines n c f pr tg).any
        (fun l => startsWithR l (lit "pattern:")) = true ∧
    (headerLines n c f pr tg).any
        (fun l => startsWithR l (lit "category:")) = true ∧
    (headerLines n c f pr tg).any
        (fun l => startsWithR l (lit "framework:")) = true := by
  refine ⟨?_, ?_, ?_, ?_, ?_, ?_⟩
  · cases pr <;> by_cases htg : tg = [] <;>
      simp [patternContent, headerLines, projectsStr, tagsStr, htg,
        lit_split_pat, lit_split_cat, lit_split_fw, lit_split_brk,
        List.append_assoc]
  · cases pr <;> by_cases htg : tg = [] <;>
      simp [headerLines, htg, startsWithR]
  · cases pr <;> by_cases htg : tg = [] <;>
      simp [headerLines, htg, startsWithR]
  · cases pr <;> by_cases htg : tg = [] <;>
      simp [headerLines, htg, startsWithR]
  · cases pr <;> by_cases htg : tg = [] <;>
      simp [headerLines, htg, startsWithR]
  · cases pr <;> by_cases htg : tg = [] <;>
      simp [headerLines, htg, startsWithR]

/- ### C7: List output -/

theorem splitOnChar_ne_nil : ∀ (c : Char) (s : List Char), splitOnChar c s ≠ []
  | c, [] => by simp [splitOnChar]
  | c, x :: xs => by
    simp only [splitOnChar]
    rcases h : splitOnChar c xs with _ | ⟨y, ys⟩
    · simp
    · by_cases hx : x = c <;> simp [hx]

theorem splitOnChar_nomem (c : Char) (x : List Char) (h : c ∉ x) :
    splitOnChar c x = [x] := by
  induction x with
  | nil => rfl
  | cons a as ih =>
    simp only [List.mem_cons, not_or] at h
    obtain ⟨h1, h2⟩ := h
    simp only [splitOnChar, ih h2]
    rw [if_neg (fun hh => h1 hh.symm)]

theorem splitOnChar_append_sep (c : Char) (x r : List Char) (h : c ∉ x) :
    splitOnChar c (x ++ c :: r) = x :: splitOnChar c r := by
  induction x with
  | nil =>
    simp only [List.nil_append, splitOnChar]
    rcases hr : splitOnChar c r with _ | ⟨y, ys⟩
    · exact absurd hr (splitOnChar_ne_nil c r)
    · simp
  | cons a as ih =>
    simp only [List.mem_cons, not_or] at h
    obtain ⟨h1, h2⟩ := h
    have hne2 : ¬ a = c := fun hh => h1 hh.symm
    have hih := ih h2
    simp only [List.cons_append, splitOnChar, List.append_eq]
    rw [hih]
    simp [hne2]

theorem splitOnChar_joinSep (c : Char) (L : List (List Char)) (hne : L ≠ [])
    (h : ∀ l ∈ L, c ∉ l) : splitOnChar c (joinSep [c] L) = L := by
  induction L with
  | nil => exact absurd rfl hne
  | cons x xs ih =>
    cases xs with
    | nil =>
      simp only [joinSep]
      exact splitOnChar_nomem c x (h x (by simp))
    | cons y ys =>
      have hx : c ∉ x := h x (by simp)
      simp only [joinSep, List.append_assoc, List.singleton_append]
      rw [splitOnChar_append_sep c x _ hx]
      rw [ih (by simp) (fun l hl => h l (List.mem_cons_of_mem x hl))]

theorem lit_split_avail :
    lit "Available patterns:\n" = lit "Available patterns:" ++ ['\n'] := rfl

/-- C7 (counterexample): for the one-record collection of the spec's
end-to-end example, `list_patterns` does NOT return the single line
`- retry-backoff (resilience)`: its payload carries the additional
heading line `Available patterns:`. -/
theorem list_output_heading_counterexample :
    listPatterns [retryPattern] = CallToolResult.success
      (lit "Available patterns:\n- retry-backoff (resilience)") ∧
    lit "Available patterns:\n- retry-backoff (resilience)" ≠
      lit "- retry-backoff (resilience)" := by decide

/-- C7 (amended): `list_patterns` returns the fixed heading
`Available patterns:` followed by the newline-joined
`- <name> (<category>)` lines, one per record in collection order and
nothing else; split on newlines, the payload is exactly the heading
line followed by the summary lines. -/
theorem list_patterns_spec (ps : List Pattern) (hne : ps ≠ [])
    (h : ∀ p ∈ ps, '\n' ∉ p.metadata.pattern ∧ '\n' ∉ p.metadata.category) :
    listPatterns ps = CallToolResult.success
      (lit "Available patterns:\n" ++
        joinSep (lit "\n") (ps.map specSummaryLine)) ∧
    splitOnChar '\n'
      (lit "Available patterns:\n" ++
        joinSep (lit "\n") (ps.map specSummaryLine)) =
      lit "Available patterns:" :: ps.map specSummaryLine := by
  constructor
  · rfl
  · rw [lit_split_avail, List.append_assoc, List.singleton_append]
    rw [splitOnChar_append_sep _ _ _ (by decide)]
    congr 1
    have hlit : (lit "\n") = [('\n' : Char)] := rfl
    rw [hlit]
    apply splitOnChar_joinSep
    · simpa using hne
    · intro l hl
      obtain ⟨p, hp, rfl⟩ := List.mem_map.mp hl
      obtain ⟨h1, h2⟩ := h p hp
      simp [specSummaryLine, lit, h1, h2]

/-- Witness for `list_patterns_spec` at the spec's one-record example
collection. -/
theorem list_patterns_spec_witness :
    listPatterns [retryPattern] = CallToolResult.success
      (lit "Available patterns:\n" ++
        joinSep (lit "\n") ([retryPattern].map specSummaryLine)) ∧
    splitOnChar '\n'
      (lit "Available patterns:\n" ++
        joinSep (lit "\n") ([retryPattern].map specSummaryLine)) =
      lit "Available patterns:" :: [retryPattern].map specSummaryLine :=
  list_patterns_spec [retryPattern] (by decide) (by decide)

/- ### C3: filter conjunction -/

theorem containsR_nil_pat (s : List Char) : containsR s [] = true := by
  cases s <;> simp [containsR, startsWithR]

/-- C3: membership in Search's result set is exactly the conjunction of
the four per-criterion match conditions — category, framework and tag by
exact (case-sensitive) equality or membership, query by lowercase
substring — with unsupplied criteria vacuously satisfied; supplying no
criteria returns the full collection. -/
theorem search_filter_conjunction (ps : List Pattern)
    (req : PatternSearchRequest) (p : Pattern) :
    (p ∈ searchResults ps req ↔
      p ∈ ps ∧
      (∀ c, req.category = some c → p.metadata.category = c) ∧
      (∀ f, req.framework = some f → p.metadata.framework = some f) ∧
      (∀ t, req.tag = some t → t ∈ p.metadata.tags) ∧
      (∀ q, req.query = some q →
        containsR (searchable p) (toLowerR q) = true)) ∧
    searchResults ps ⟨none, none, none, none⟩ = ps := by
  constructor
  · rw [searchResults, List.mem_filter]
    rcases req with ⟨q, c, f, t⟩
    cases q <;> cases c <;> cases f <;> cases t <;>
      simp [searchPred, and_assoc, and_comm, and_left_comm]
  · apply List.filter_eq_self.mpr
    intro p _
    rfl

/- ### C4: query criterion -/

/-- C4 (counterexample): for the record named `a` with content `b`, the
lowercase concatenation of name and content is `ab`, so by the claim
the query `ab` matches; the code searches the SPACE-separated text
`a b` (built by `format!("{} {}", ..)`) and does not match, so Search
returns nothing. -/
theorem query_concatenation_counterexample :
    specQueryMatches (lit "ab") abPattern ∧
    searchPred ⟨some (lit "ab"), none, none, none⟩ abPattern = false ∧
    searchResults [abPattern] ⟨some (lit "ab"), none, none, none⟩ = [] := by
  decide

/-- C4 (amended): the query criterion matches a record iff the
lowercase SPACE-SEPARATED concatenation of the record's name and
content contains the lowercased query as a substring; matching depends
on the query only through its lowercasing, hence is independent of the
query's casing. -/
theorem query_match_spec (q : List Char) (p : Pattern) :
    (searchPred ⟨some q, none, none, none⟩ p = true ↔
      containsR (toLowerR (p.metadata.pattern ++ lit " " ++ p.content))
        (toLowerR q) = true) ∧
    (∀ q', toLowerR q' = toLowerR q →
      searchPred ⟨some q', none, none, none⟩ p =
        searchPred ⟨some q, none, none, none⟩ p) := by
  constructor
  · simp [searchPred, searchable]
  · intro q' hq
    simp [searchPred, searchable, hq]

/-- Witness for `query_match_spec`: the spec's own example — query
`AXUM` behaves like `axum` on a record whose content is
`axum handler`. -/
theorem query_match_spec_witness :
    searchPred ⟨some (lit "AXUM"), none, none, none⟩ axumPattern =
      searchPred ⟨some (lit "axum"), none, none, none⟩ axumPattern :=
  (query_match_spec (lit "axum") axumPattern).2 (lit "AXUM") (by decide)

/- ### C8: GetByName -/

/-- C8: `get_pattern` returns the content of the FIRST record in
collection order whose name equals the argument exactly, and when no
record's name equals it, the success payload
`Pattern '<name>' not found.` rather than an error. -/
theorem get_pattern_spec (ps l1 l2 : List Pattern) (p : Pattern)
    (name : List Char) :
    (ps = l1 ++ p :: l2 → p.metadata.pattern = name →
      (∀ q ∈ l1, q.metadata.pattern ≠ name) →
      getPattern ps name = CallToolResult.success p.content) ∧
    ((∀ q ∈ ps, q.metadata.pattern ≠ name) →
      getPattern ps name = CallToolResult.success
        (lit "Pattern '" ++ name ++ lit "' not found.")) := by
  constructor
  · rintro rfl hname hfirst
    unfold getPattern
    have hfind : (l1 ++ p :: l2).find?
        (fun r => r.metadata.pattern == name) = some p := by
      induction l1 with
      | nil =>
        simp only [List.nil_append]
        exact List.find?_cons_of_pos _ (by simp [hname])
      | cons a l1' ih =>
        simp only [List.cons_append]
        rw [List.find?_cons_of_neg _ (by simp [hfirst a (by simp)])]
        exact ih (fun r hr => hfirst r (List.mem_cons_of_mem a hr))
    rw [hfind]
  · intro hnone
    unfold getPattern
    have hfind : ps.find? (fun r => r.metadata.pattern == name) = none := by
      apply List.find?_eq_none.mpr
      intro x hx
      simp [hnone x hx]
    rw [hfind]

/-- Witness for `get_pattern_spec`: a two-record collection, looked up
by the second record's name and by a missing name. -/
theorem get_pattern_spec_witness :
    getPattern [otherPattern, retryPattern] (lit "retry-backoff") =
      CallToolResult.success retryPattern.content ∧
    getPattern [otherPattern, retryPattern] (lit "missing") =
      CallToolResult.success
        (lit "Pattern '" ++ lit "missing" ++ lit "' not found.") :=
  ⟨(get_pattern_spec [otherPattern, retryPattern] [otherPattern] []
      retryPattern (lit "retry-backoff")).1 rfl (by decide) (by decide),
   (get_pattern_spec [otherPattern, retryPattern] [] [] retryPattern
      (lit "missing")).2 (by decide)⟩

/- ### C9: the collection is never mutated -/

theorem stepState_patterns (s : ServerState) (o : Op) :
    (stepState s o).patterns = s.patterns := by
  cases o with
  | list => rfl
  | search req => rfl
  | get name => rfl
  | create req wOk =>
    simp only [stepState, createPattern]
    rcases h : validatePatternName req.patternName with e | u
    · rfl
    · cases wOk <;> rfl

/-- C9: `create_pattern` — whether it succeeds, fails validation, or
fails at write time — leaves the in-memory collection unchanged, and no
sequence of tool calls ever changes the collection established at
startup, even after new records are written to disk. -/
theorem collection_never_mutated (st : ServerState) (ops : List Op) :
    (∀ (req : CreatePatternRequest) (writeOk : Bool),
      ((createPattern st req writeOk).2).patterns = st.patterns) ∧
    ((ops.foldl stepState st).patterns = st.patterns) := by
  constructor
  · intro req writeOk
    exact stepState_patterns st (Op.create req writeOk)
  · induction ops generalizing st with
    | nil => rfl
    | cons o os ih =>
      simp only [List.foldl_cons]
      rw [ih (stepState st o), stepState_patterns]

/- ### C10: empty query string -/

theorem renderSearchItem_two_stars (p : Pattern) (t : List Char)
    (h : renderSearchItem p = some t) : ∃ u, t = '*' :: '*' :: u := by
  unfold renderSearchItem at h
  obtain ⟨tb, -, rfl⟩ := Option.map_eq_some'.mp h
  exact ⟨_, rfl⟩

theorem joinSep_cons_head (sep x : List Char) (xs : List (List Char)) :
    ∃ u, joinSep sep (x :: xs) = x ++ u := by
  cases xs with
  | nil => exact ⟨[], (List.append_nil x).symm⟩
  | cons y ys => exact ⟨sep ++ joinSep sep (y :: ys), by simp [joinSep]⟩

/-- C10: on a non-empty collection, a Search whose only supplied
criterion is the EMPTY query string selects every record (the empty
string is a substring of every searchable text) and does not produce
the `No patterns found.` outcome. -/
theorem empty_query_returns_collection (ps : List Pattern) (hne : ps ≠ []) :
    searchResults ps ⟨some [], none, none, none⟩ = ps ∧
    searchPatterns ps ⟨some [], none, none, none⟩ ≠
      some (CallToolResult.success (lit "No patterns found.")) := by
  have hall : searchResults ps ⟨some [], none, none, none⟩ = ps := by
    apply List.filter_eq_self.mpr
    intro p _
    simp [searchPred, toLowerR, containsR_nil_pat]
  refine ⟨hall, ?_⟩
  simp only [searchPatterns, hall]
  rw [if_neg hne]
  rcases hmap : mapOpt renderSearchItem ps with _ | items
  · simp
  · simp only [Option.map_some', ne_eq, Option.some.injEq]
    intro hEq
    obtain ⟨p0, rest, rfl⟩ := List.exists_cons_of_ne_nil hne
    rw [mapOpt] at hmap
    rcases hr : renderSearchItem p0 with _ | i0
    · rw [hr] at hmap; cases hmap
    · rw [hr] at hmap
      obtain ⟨rest', -, rfl⟩ := Option.map_eq_some'.mp hmap
      obtain ⟨u0, rfl⟩ := renderSearchItem_two_stars p0 i0 hr
      obtain ⟨u, hu⟩ := joinSep_cons_head (lit "\n\n") ('*' :: '*' :: u0) rest'
      rw [hu] at hEq
      cases hEq

/-- Witness for `empty_query_returns_collection` at the one-record
example collection. -/
theorem empty_query_returns_collection_witness :
    searchResults [retryPattern] ⟨some [], none, none, none⟩ = [retryPattern] ∧
    searchPatterns [retryPattern] ⟨some [], none, none, none⟩ ≠
      some (CallToolResult.success (lit "No patterns found.")) :=
  empty_query_returns_collection [retryPattern] (by decide)

/- ### C5: writer-parser round trip -/

theorem chopStart_append (p s : List Char) : chopStart (p ++ s) p = some s := by
  induction p with
  | nil => cases s <;> rfl
  | cons a as ih => simp [chopStart, ih]

theorem startsWithR_append_self (p s : List Char) :
    startsWithR (p ++ s) p = true := by
  induction p with
  | nil => cases s <;> rfl
  | cons a as ih => simp [startsWithR, ih]

theorem splitFirst_cons_ne (d : Char) (sep' : List Char) (a : Char)
    (s : List Char) (h : a ≠ d) :
    splitFirst (d :: sep') (a :: s) =
      (splitFirst (d :: sep') s).map (fun r => (a :: r.1, r.2)) := by
  simp only [splitFirst]
  rw [if_neg]
  simp [startsWithR, h]

theorem splitFirst_append_nomem (d : Char) (sep' x s : List Char)
    (h : ∀ a ∈ x, a ≠ d) :
    splitFirst (d :: sep') (x ++ s) =
      (splitFirst (d :: sep') s).map (fun r => (x ++ r.1, r.2)) := by
  induction x with
  | nil =>
    cases hs : splitFirst (d :: sep') s <;> simp [hs]
  | cons a as ih =>
    rw [List.cons_append, splitFirst_cons_ne d sep' a _ (h a (by simp))]
    rw [ih (fun b hb => h b (by simp [hb]))]
    cases splitFirst (d :: sep') s <;> simp

theorem splitFirst_at_self (d : Char) (sep' B : List Char) :
    splitFirst (d :: sep') ((d :: sep') ++ B) = some ([], B) := by
  rw [List.cons_append]
  simp only [splitFirst]
  rw [if_pos]
  · simp [List.drop_left]
  · have := startsWithR_append_self (d :: sep') B
    rw [List.cons_append] at this
    exact this

theorem splitFirst_header : ∀ (L : List (List Char)) (B : List Char),
    L ≠ [] → (∀ l ∈ L, l ≠ [] ∧ ('\n') ∉ l ∧ l.head? ≠ some '-') →
    splitFirst (lit "\n---\n") (joinSep ['\n'] L ++ (lit "\n---\n" ++ B)) =
      some (joinSep ['\n'] L, B)
  | [], _, hne, _ => absurd rfl hne
  | [x], B, _, h => by
    obtain ⟨-, hxnl, -⟩ := h x (by simp)
    have hsep : lit "\n---\n" = '\n' :: lit "---\n" := rfl
    simp only [joinSep]
    rw [hsep, splitFirst_append_nomem '\n' _ x _
      (fun a ha hEq => hxnl (hEq ▸ ha))]
    rw [show ('\n' :: lit "---\n") ++ B = ('\n' :: lit "---\n") ++ B from rfl]
    rw [splitFirst_at_self]
    simp
  | x :: y :: ys, B, _, h => by
    obtain ⟨-, hxnl, -⟩ := h x (by simp)
    obtain ⟨hyne, -, hyhd⟩ := h y (by simp)
    have hsep : lit "\n---\n" = '\n' :: lit "---\n" := rfl
    have hjoin : joinSep ['\n'] (x :: y :: ys) =
        x ++ '\n' :: joinSep ['\n'] (y :: ys) := by
      simp [joinSep]
    rw [hjoin, List.append_assoc, List.cons_append]
    rw [hsep, splitFirst_append_nomem '\n' _ x _
      (fun a ha hEq => hxnl (hEq ▸ ha))]
    have hrec := splitFirst_header (y :: ys) B (by simp)
      (fun l hl => h l (List.mem_cons_of_mem x hl))
    rw [hsep] at hrec
    have hstart : ∀ t : List Char, startsWithR
        (joinSep ['\n'] (y :: ys) ++ t) (lit "---\n") = false := by
      intro t
      obtain ⟨u, hu⟩ := joinSep_cons_head ['\n'] y ys
      rw [hu]
      obtain ⟨b, y', rfl⟩ := List.exists_cons_of_ne_nil hyne
      have hbne : b ≠ '-' := by
        intro hEq
        exact hyhd (by rw [hEq]; rfl)
      have hlit : lit "---\n" = '-' :: lit "--\n" := rfl
      rw [hlit]
      simp [startsWithR, hbne]
    have hstep : ∀ t : List Char, splitFirst ('\n' :: lit "---\n")
        ('\n' :: (joinSep ['\n'] (y :: ys) ++ t)) =
        (splitFirst ('\n' :: lit "---\n")
          (joinSep ['\n'] (y :: ys) ++ t)).map
          (fun r => ('\n' :: r.1, r.2)) := by
      intro t
      simp only [splitFirst]
      rw [if_neg]
      simp [startsWithR, hstart t]
    rw [hstep, hrec]
    simp [hjoin]

theorem trimR_cons_ws (a : Char) (s : List Char)
    (h : a.isWhitespace = true) : trimR (a :: s) = trimR s := by
  unfold trimR
  rw [List.dropWhile_cons_of_pos h]

theorem trimR_concat_ws (a : Char) (s : List Char)
    (h : a.isWhitespace = true) : trimR (s ++ [a]) = trimR s := by
  unfold trimR
  rw [List.dropWhile_append]
  rcases hd : s.dropWhile Char.isWhitespace with _ | ⟨b, bs⟩
  · simp [List.dropWhile_cons_of_pos h]
  · simp only [List.isEmpty_cons, Bool.false_eq_true, if_false]
    rw [List.reverse_append]
    simp only [List.reverse_cons, List.reverse_nil, List.nil_append,
      List.singleton_append]
    rw [List.dropWhile_cons_of_pos h]

theorem trimR_wrap (ct : List Char) :
    trimR ('\n' :: (ct ++ ['\n'])) = trimR ct := by
  rw [trimR_cons_ws '\n' _ (by decide), trimR_concat_ws '\n' _ (by decide)]


theorem trimSpaces_cons_space (s : List Char) :
    trimSpaces (' ' :: s) = trimSpaces s := by
  unfold trimSpaces
  rw [List.dropWhile_cons_of_pos (by decide)]

theorem trimSpaces_eq_self (s : List Char) (h1 : s.head? ≠ some ' ')
    (h2 : s.getLast? ≠ some ' ') : trimSpaces s = s := by
  unfold trimSpaces
  have hd : s.dropWhile (· = ' ') = s := by
    cases s with
    | nil => rfl
    | cons a as =>
      rw [List.dropWhile_cons_of_neg]
      simp only [List.head?_cons, ne_eq, Option.some.injEq] at h1
      simp [h1]
  rw [hd]
  have hrev : s.reverse.dropWhile (· = ' ') = s.reverse := by
    rcases hr : s.reverse with _ | ⟨b, bs⟩
    · rfl
    · rw [List.dropWhile_cons_of_neg]
      have hb : s.getLast? = some b := by
        rw [← List.head?_reverse, hr]; rfl
      simp only [decide_eq_true_eq]
      intro hEq
      exact h2 (hEq ▸ hb)
  rw [hrev, List.reverse_reverse]

theorem trimSpaces_cons_ne_nil (a : Char) (s : List Char) (h : a ≠ ' ') :
    trimSpaces (a :: s) ≠ [] := by
  unfold trimSpaces
  rw [List.dropWhile_cons_of_neg (by simp [h])]
  intro hEq
  rw [List.reverse_eq_nil_iff] at hEq
  rw [List.dropWhile_eq_nil_iff] at hEq
  have := hEq a (by simp)
  simp at this
  exact h this

theorem validChar_plain (a : Char) (h : validChar a = true) :
    plainChar a = true := by
  simp only [validChar, Bool.or_eq_true, decide_eq_true_eq] at h
  simp only [plainChar, Bool.or_eq_true, decide_eq_true_eq]
  tauto

theorem validChar_ne (a : Char) (h : validChar a = true) :
    a ≠ ' ' ∧ a ≠ ':' ∧ a ≠ '\n' := by
  refine ⟨?_, ?_, ?_⟩ <;> rintro rfl <;> revert h <;> decide

theorem plainChar_ne (a : Char) (h : plainChar a = true) :
    a ≠ '\n' ∧ a ≠ ':' ∧ a ≠ ',' ∧ a ≠ '[' ∧ a ≠ ']' := by
  refine ⟨?_, ?_, ?_, ?_, ?_⟩ <;> rintro rfl <;> revert h <;> decide

theorem plainText_trimSpaces (s : List Char) (h : plainText s) :
    trimSpaces s = s :=
  trimSpaces_eq_self s h.2.2.1 h.2.2.2

theorem parseYamlValue_plain (v : List Char) (hv : plainText v) :
    parseYamlValue (' ' :: v) = some (YamlValue.scalar v) := by
  obtain ⟨hne, hchars, hh, hl⟩ := hv
  have ht : trimSpaces (' ' :: v) = v := by
    rw [trimSpaces_cons_space, trimSpaces_eq_self v hh hl]
  unfold parseYamlValue
  rw [ht]
  obtain ⟨c0, cs, rfl⟩ := List.exists_cons_of_ne_nil hne
  have hc0 : c0 ≠ '[' := (plainChar_ne c0 (hchars c0 (by simp))).2.2.2.1
  simp [hc0]

theorem parseYamlLine_kv (k v : List Char) (hk : ∀ a ∈ k, a ≠ ':') :
    parseYamlLine (k ++ ':' :: v) =
      (parseYamlValue v).map (fun w => (k, w)) := by
  unfold parseYamlLine
  have hsplit : splitFirst (lit ":") (k ++ ':' :: v) = some (k, v) := by
    have : lit ":" = ':' :: ([] : List Char) := rfl
    rw [this, splitFirst_append_nomem ':' [] k _ hk]
    have hself : splitFirst (':' :: ([] : List Char)) (':' :: v) =
        some ([], v) := by
      have := splitFirst_at_self ':' [] v
      simpa using this
    rw [hself]
    simp
  rw [hsplit]


theorem splitOnChar_joinSep_comma :
    ∀ (l : List (List Char)), l ≠ [] →
    (∀ x ∈ l, (',') ∉ x ∧ trimSpaces x = x) →
    (splitOnChar ',' (joinSep (lit ", ") l)).map trimSpaces = l
  | [], hne, _ => absurd rfl hne
  | [x], _, h => by
    obtain ⟨hx1, hx2⟩ := h x (by simp)
    simp only [joinSep]
    rw [splitOnChar_nomem ',' x hx1]
    simp [hx2]
  | x :: y :: ys, _, h => by
    obtain ⟨hx1, hx2⟩ := h x (by simp)
    have hjoin : joinSep (lit ", ") (x :: y :: ys) =
        x ++ ',' :: (' ' :: joinSep (lit ", ") (y :: ys)) := by
      simp [joinSep, lit]
    rw [hjoin, splitOnChar_append_sep ',' x _ hx1]
    rcases hg : splitOnChar ',' (joinSep (lit ", ") (y :: ys)) with _ | ⟨g, gs⟩
    · exact absurd hg (splitOnChar_ne_nil _ _)
    · have hcons : splitOnChar ',' (' ' :: joinSep (lit ", ") (y :: ys)) =
          (' ' :: g) :: gs := by
        simp only [splitOnChar, hg]
        rw [if_neg (by decide)]
      rw [hcons]
      have ih := splitOnChar_joinSep_comma (y :: ys) (by simp)
        (fun z hz => h z (List.mem_cons_of_mem x hz))
      rw [hg] at ih
      simp only [List.map_cons] at ih ⊢
      rw [hx2, trimSpaces_cons_space]
      exact congrArg (x :: ·) ih

theorem parseYamlValue_flow (l : List (List Char))
    (hl : ∀ x ∈ l, plainText x) :
    parseYamlValue (' ' :: '[' :: (joinSep (lit ", ") l ++ [']'])) =
      some (YamlValue.listV l) := by
  rcases l with _ | ⟨x, xs⟩
  · decide
  · have hinner' : ∀ z ∈ x :: xs, (',') ∉ z ∧ trimSpaces z = z := by
      intro z hz
      obtain ⟨hzne, hzchars, -, -⟩ := hl z hz
      constructor
      · intro hmem
        exact (plainChar_ne ',' (hzchars ',' hmem)).2.2.1 rfl
      · exact plainText_trimSpaces z (hl z hz)
    have ht : trimSpaces (' ' :: '[' :: (joinSep (lit ", ") (x :: xs) ++ [']'])) =
        '[' :: (joinSep (lit ", ") (x :: xs) ++ [']']) := by
      rw [trimSpaces_cons_space]
      apply trimSpaces_eq_self
      · simp
      · rw [show ('[' :: (joinSep (lit ", ") (x :: xs) ++ [']'])) =
            ('[' :: joinSep (lit ", ") (x :: xs)) ++ [']'] from by simp]
        rw [List.getLast?_concat]
        simp
    unfold parseYamlValue
    rw [ht]
    simp only [reduceIte]
    rw [List.getLast?_concat]
    rw [List.dropLast_concat]
    have hne2 : trimSpaces (joinSep (lit ", ") (x :: xs)) ≠ [] := by
      obtain ⟨u, hu⟩ := joinSep_cons_head (lit ", ") x xs
      obtain ⟨hxne, hxchars, hxh, -⟩ := hl x (by simp)
      obtain ⟨a, x', rfl⟩ := List.exists_cons_of_ne_nil hxne
      rw [hu]
      simp only [List.cons_append]
      apply trimSpaces_cons_ne_nil
      simp only [List.head?_cons, ne_eq, Option.some.injEq] at hxh
      exact hxh
    rw [if_neg hne2]
    rw [splitOnChar_joinSep_comma (x :: xs) (by simp) hinner']
    rfl


theorem kb_pp : (lit "pattern" == lit "pattern") = true := by decide
theorem kb_pc : (lit "pattern" == lit "category") = false := by decide
theorem kb_pf : (lit "pattern" == lit "framework") = false := by decide
theorem kb_pj : (lit "pattern" == lit "projects") = false := by decide
theorem kb_pt : (lit "pattern" == lit "tags") = false := by decide
theorem kb_cc : (lit "category" == lit "category") = true := by decide
theorem kb_cf : (lit "category" == lit "framework") = false := by decide
theorem kb_cj : (lit "category" == lit "projects") = false := by decide
theorem kb_ct : (lit "category" == lit "tags") = false := by decide
theorem kb_ff : (lit "framework" == lit "framework") = true := by decide
theorem kb_fj : (lit "framework" == lit "projects") = false := by decide
theorem kb_ft : (lit "framework" == lit "tags") = false := by decide
theorem kb_jj : (lit "projects" == lit "projects") = true := by decide
theorem kb_jt : (lit "projects" == lit "tags") = false := by decide
theorem kb_tj : (lit "tags" == lit "projects") = false := by decide
theorem kb_tt : (lit "tags" == lit "tags") = true := by decide

theorem parseYamlMetadata_b (Y n c f : List Char)
    (hdoc : parseYamlDoc Y = some
      [(lit "pattern", YamlValue.scalar n),
       (lit "category", YamlValue.scalar c),
       (lit "framework", YamlValue.scalar f)]) :
    parseYamlMetadata Y = some ⟨n, c, some f, [], []⟩ := by
  unfold parseYamlMetadata
  rw [hdoc]
  simp [yamlLookup, List.find?, kb_pp, kb_pc, kb_pf, kb_pj, kb_pt, kb_cc,
    kb_cf, kb_cj, kb_ct, kb_ff, kb_fj, kb_ft,
    yamlReqString, yamlOptString, yamlStringList]

theorem parseYamlMetadata_p (Y n c f : List Char) (pl : List (List Char))
    (hdoc : parseYamlDoc Y = some
      [(lit "pattern", YamlValue.scalar n),
       (lit "category", YamlValue.scalar c),
       (lit "framework", YamlValue.scalar f),
       (lit "projects", YamlValue.listV pl)]) :
    parseYamlMetadata Y = some ⟨n, c, some f, pl, []⟩ := by
  unfold parseYamlMetadata
  rw [hdoc]
  simp [yamlLookup, List.find?, kb_pp, kb_pc, kb_pf, kb_pj, kb_pt, kb_cc,
    kb_cf, kb_cj, kb_ct, kb_ff, kb_fj, kb_ft, kb_jj, kb_jt,
    yamlReqString, yamlOptString, yamlStringList]

theorem parseYamlMetadata_t (Y n c f : List Char) (tl : List (List Char))
    (hdoc : parseYamlDoc Y = some
      [(lit "pattern", YamlValue.scalar n),
       (lit "category", YamlValue.scalar c),
       (lit "framework", YamlValue.scalar f),
       (lit "tags", YamlValue.listV tl)]) :
    parseYamlMetadata Y = some ⟨n, c, some f, [], tl⟩ := by
  unfold parseYamlMetadata
  rw [hdoc]
  simp [yamlLookup, List.find?, kb_pp, kb_pc, kb_pf, kb_pj, kb_pt, kb_cc,
    kb_cf, kb_cj, kb_ct, kb_ff, kb_fj, kb_ft, kb_tj, kb_tt,
    yamlReqString, yamlOptString, yamlStringList]

theorem parseYamlMetadata_pt (Y n c f : List Char) (pl tl : List (List Char))
    (hdoc : parseYamlDoc Y = some
      [(lit "pattern", YamlValue.scalar n),
       (lit "category", YamlValue.scalar c),
       (lit "framework", YamlValue.scalar f),
       (lit "projects", YamlValue.listV pl),
       (lit "tags", YamlValue.listV tl)]) :
    parseYamlMetadata Y = some ⟨n, c, some f, pl, tl⟩ := by
  unfold parseYamlMetadata
  rw [hdoc]
  simp [yamlLookup, List.find?, kb_pp, kb_pc, kb_pf, kb_pj, kb_pt, kb_cc,
    kb_cf, kb_cj, kb_ct, kb_ff, kb_fj, kb_ft, kb_jj, kb_jt, kb_tj, kb_tt,
    yamlReqString, yamlOptString, yamlStringList]

theorem loadPattern_of_header (L : List (List Char)) (ct path : List Char)
    (md : PatternMetadata) (hne : L ≠ [])
    (hl : ∀ l ∈ L, l ≠ [] ∧ ('\n') ∉ l ∧ l.head? ≠ some '-')
    (hmeta : parseYamlMetadata (joinSep ['\n'] L) = some md) :
    loadPattern (lit "---\n" ++ (joinSep ['\n'] L ++
        (lit "\n---\n" ++ ('\n' :: (ct ++ ['\n']))))) path =
      some ⟨md, trimR ct, path⟩ := by
  unfold loadPattern
  rw [chopStart_append]
  simp only [Option.bind_eq_bind, Option.some_bind]
  rw [splitFirst_header L _ hne hl]
  simp [hmeta, trimR_wrap]


theorem validatePatternName_ok (n : List Char)
    (h : validatePatternName n = Except.ok ()) :
    n ≠ [] ∧ ∀ a ∈ n, validChar a = true := by
  unfold validatePatternName at h
  split at h
  · cases h
  · split at h
    · cases h
    · rename_i h1 h2
      simp only [Bool.or_eq_true, decide_eq_true_eq, not_or] at h1
      simp only [List.any_eq_true, Bool.not_eq_true', not_exists, not_and] at h2
      refine ⟨h1.1, fun a ha => ?_⟩
      have := h2 a ha
      revert this
      cases validChar a <;> simp

theorem mem_of_head?_eq (s : List Char) (a : Char) (h : s.head? = some a) :
    a ∈ s := by
  cases s with
  | nil => cases h
  | cons b bs =>
    simp only [List.head?_cons, Option.some.injEq] at h
    rw [← h]
    exact List.mem_cons_self b bs

theorem mem_of_getLast?_eq (s : List Char) (a : Char)
    (h : s.getLast? = some a) : a ∈ s := by
  obtain ⟨hne2, hEq2⟩ := List.mem_getLast?_eq_getLast (l := s) (x := a)
    (by rw [Option.mem_def, h])
  rw [hEq2]
  exact List.getLast_mem hne2

theorem plainText_of_no_space (s : List Char) (hne : s ≠ [])
    (hch : ∀ a ∈ s, plainChar a = true) (hsp : ' ' ∉ s) : plainText s := by
  refine ⟨hne, hch, ?_, ?_⟩
  · intro hEq
    exact hsp (mem_of_head?_eq s ' ' hEq)
  · intro hEq
    exact hsp (mem_of_getLast?_eq s ' ' hEq)

theorem plainText_no_nl (s : List Char) (h : plainText s) : ('\n') ∉ s :=
  fun hm => (plainChar_ne '\n' (h.2.1 '\n' hm)).1 rfl

theorem joinSep_no_nl (l : List (List Char))
    (hl : ∀ x ∈ l, ('\n') ∉ x) : ('\n') ∉ joinSep (lit ", ") l := by
  induction l with
  | nil => simp [joinSep]
  | cons x xs ih =>
    cases xs with
    | nil => exact hl x (by simp)
    | cons y ys =>
      simp only [joinSep, List.append_assoc]
      intro hm
      rcases List.mem_append.mp hm with hm1 | hm2
      · exact hl x (by simp) hm1
      · rcases List.mem_append.mp hm2 with hm3 | hm4
        · revert hm3; decide
        · exact ih (fun z hz => hl z (List.mem_cons_of_mem x hz)) hm4

theorem header_line_ok (k v : List Char) (hk0 : k ≠ [])
    (hk1 : k.head? ≠ some '-') (hnlk : ('\n') ∉ k) (hnlv : ('\n') ∉ v) :
    (k ++ v) ≠ [] ∧ ('\n') ∉ (k ++ v) ∧ (k ++ v).head? ≠ some '-' := by
  obtain ⟨a, k', rfl⟩ := List.exists_cons_of_ne_nil hk0
  refine ⟨by simp, ?_, ?_⟩
  · intro hm
    rcases List.mem_append.mp hm with hm1 | hm2
    · exact hnlk hm1
    · exact hnlv hm2
  · simpa using hk1

theorem line_split_pattern (n : List Char) :
    lit "pattern: " ++ n = lit "pattern" ++ ':' :: (' ' :: n) := by
  have h : lit "pattern: " = lit "pattern" ++ [':', ' '] := rfl
  rw [h, List.append_assoc]
  rfl

theorem line_split_category (c : List Char) :
    lit "category: " ++ c = lit "category" ++ ':' :: (' ' :: c) := by
  have h : lit "category: " = lit "category" ++ [':', ' '] := rfl
  rw [h, List.append_assoc]
  rfl

theorem line_split_framework (f : List Char) :
    lit "framework: " ++ f = lit "framework" ++ ':' :: (' ' :: f) := by
  have h : lit "framework: " = lit "framework" ++ [':', ' '] := rfl
  rw [h, List.append_assoc]
  rfl

theorem line_split_projects (v : List Char) :
    lit "projects: [" ++ (v ++ lit "]") =
      lit "projects" ++ ':' :: (' ' :: ('[' :: (v ++ [']']))) := by
  have h1 : lit "projects: [" = lit "projects" ++ [':', ' ', '['] := rfl
  have h2 : lit "]" = [(']' : Char)] := rfl
  rw [h1, h2, List.append_assoc]
  rfl

theorem line_split_tags (v : List Char) :
    lit "tags: [" ++ (v ++ lit "]") =
      lit "tags" ++ ':' :: (' ' :: ('[' :: (v ++ [']']))) := by
  have h1 : lit "tags: [" = lit "tags" ++ [':', ' ', '['] := rfl
  have h2 : lit "]" = [(']' : Char)] := rfl
  rw [h1, h2, List.append_assoc]
  rfl

theorem lit_split_sep : lit "\n---\n" = ['\n'] ++ lit "---\n" := rfl

theorem lit_split_close : lit "---\n\n" = lit "---\n" ++ ['\n'] := rfl

theorem lit_nl : lit "\n" = ['\n'] := rfl


/-- C5 (amended): for any record serialized by the Writer's canonical
format from a validated name, plain single-line category and framework
values, and optional project and tag lists whose elements are plain
(and in particular contain no commas), the Parser recovers exactly the
written metadata and the content modulo whitespace trimming. -/
theorem writer_parser_roundtrip (n c f : List Char) (pr : Option (List (List Char)))
    (tg : List (List Char)) (ct path : List Char)
    (hn : validatePatternName n = Except.ok ())
    (hc : plainText c) (hf : plainText f)
    (hpr : ∀ l, pr = some l → ∀ x ∈ l, plainText x)
    (htg : ∀ x ∈ tg, plainText x) :
    loadPattern (patternContent n c f pr tg ct) path =
      some ⟨⟨n, c, some f, pr.getD [], tg⟩, trimR ct, path⟩ := by
  obtain ⟨hnne, hnchars⟩ := validatePatternName_ok n hn
  have hnsp : ' ' ∉ n := fun hm => absurd (hnchars ' ' hm) (by decide)
  have hnplain : plainText n :=
    plainText_of_no_space n hnne (fun a ha => validChar_plain a (hnchars a ha)) hnsp
  have hnnl : ('\n') ∉ n := plainText_no_nl n hnplain
  have hcnl : ('\n') ∉ c := plainText_no_nl c hc
  have hfnl : ('\n') ∉ f := plainText_no_nl f hf
  have hl1 : parseYamlLine (lit "pattern: " ++ n) =
      some (lit "pattern", YamlValue.scalar n) := by
    rw [line_split_pattern, parseYamlLine_kv _ _ (by decide),
      parseYamlValue_plain n hnplain]
    rfl
  have hl2 : parseYamlLine (lit "category: " ++ c) =
      some (lit "category", YamlValue.scalar c) := by
    rw [line_split_category, parseYamlLine_kv _ _ (by decide),
      parseYamlValue_plain c hc]
    rfl
  have hl3 : parseYamlLine (lit "framework: " ++ f) =
      some (lit "framework", YamlValue.scalar f) := by
    rw [line_split_framework, parseYamlLine_kv _ _ (by decide),
      parseYamlValue_plain f hf]
    rfl
  rcases pr with _ | pl
  · by_cases htgnil : tg = []
    · subst htgnil
      set L : List (List Char) :=
        [lit "pattern: " ++ n, lit "category: " ++ c, lit "framework: " ++ f]
        with hLdef
      have hL : ∀ l ∈ L, l ≠ [] ∧ ('\n') ∉ l ∧ l.head? ≠ some '-' := by
        intro l hl
        rw [hLdef] at hl
        simp only [List.mem_cons, List.not_mem_nil, or_false] at hl
        rcases hl with rfl | rfl | rfl
        · exact header_line_ok _ _ (by decide) (by decide) (by decide) hnnl
        · exact header_line_ok _ _ (by decide) (by decide) (by decide) hcnl
        · exact header_line_ok _ _ (by decide) (by decide) (by decide) hfnl
      have hdoc : parseYamlDoc (joinSep ['\n'] L) = some
          [(lit "pattern", YamlValue.scalar n),
           (lit "category", YamlValue.scalar c),
           (lit "framework", YamlValue.scalar f)] := by
        unfold parseYamlDoc
        rw [splitOnChar_joinSep '\n' L (by simp [hLdef])
          (fun l hl => (hL l hl).2.1)]
        rw [hLdef]
        simp [mapOpt, hl1, hl2, hl3]
      have hmeta := parseYamlMetadata_b _ n c f hdoc
      have heq : patternContent n c f none [] ct =
          lit "---\n" ++ (joinSep ['\n'] L ++
            (lit "\n---\n" ++ ('\n' :: (ct ++ ['\n'])))) := by
        rw [hLdef]
        simp [patternContent, projectsStr, tagsStr, joinSep,
          lit_split_pat, lit_split_cat, lit_split_fw, lit_split_sep,
          lit_split_close, lit_nl, List.append_assoc]
      rw [heq, loadPattern_of_header L ct path _ (by simp [hLdef]) hL hmeta]
      rfl
    · have htgnl : ('\n') ∉ joinSep (lit ", ") tg ++ lit "]" := by
        intro hm
        rcases List.mem_append.mp hm with hm1 | hm2
        · exact joinSep_no_nl tg (fun x hx => plainText_no_nl x (htg x hx)) hm1
        · revert hm2; decide
      have hl5 : parseYamlLine (lit "tags: [" ++ (joinSep (lit ", ") tg ++ lit "]")) =
          some (lit "tags", YamlValue.listV tg) := by
        rw [line_split_tags, parseYamlLine_kv _ _ (by decide),
          parseYamlValue_flow tg htg]
        rfl
      set L : List (List Char) :=
        [lit "pattern: " ++ n, lit "category: " ++ c, lit "framework: " ++ f,
         lit "tags: [" ++ (joinSep (lit ", ") tg ++ lit "]")]
        with hLdef
      have hL : ∀ l ∈ L, l ≠ [] ∧ ('\n') ∉ l ∧ l.head? ≠ some '-' := by
        intro l hl
        rw [hLdef] at hl
        simp only [List.mem_cons, List.not_mem_nil, or_false] at hl
        rcases hl with rfl | rfl | rfl | rfl
        · exact header_line_ok _ _ (by decide) (by decide) (by decide) hnnl
        · exact header_line_ok _ _ (by decide) (by decide) (by decide) hcnl
        · exact header_line_ok _ _ (by decide) (by decide) (by decide) hfnl
        · exact header_line_ok _ _ (by decide) (by decide) (by decide) htgnl
      have hdoc : parseYamlDoc (joinSep ['\n'] L) = some
          [(lit "pattern", YamlValue.scalar n),
           (lit "category", YamlValue.scalar c),
           (lit "framework", YamlValue.scalar f),
           (lit "tags", YamlValue.listV tg)] := by
        unfold parseYamlDoc
        rw [splitOnChar_joinSep '\n' L (by simp [hLdef])
          (fun l hl => (hL l hl).2.1)]
        rw [hLdef]
        simp [mapOpt, hl1, hl2, hl3, hl5]
      have hmeta := parseYamlMetadata_t _ n c f tg hdoc
      have heq : patternContent n c f none tg ct =
          lit "---\n" ++ (joinSep ['\n'] L ++
            (lit "\n---\n" ++ ('\n' :: (ct ++ ['\n'])))) := by
        rw [hLdef]
        simp [patternContent, projectsStr, tagsStr, htgnil, joinSep,
          lit_split_pat, lit_split_cat, lit_split_fw, lit_split_sep,
          lit_split_close, lit_split_brk, lit_nl, List.append_assoc]
      rw [heq, loadPattern_of_header L ct path _ (by simp [hLdef]) hL hmeta]
      rfl
  · have hpl : ∀ x ∈ pl, plainText x := hpr pl rfl
    have hplnl : ('\n') ∉ joinSep (lit ", ") pl ++ lit "]" := by
      intro hm
      rcases List.mem_append.mp hm with hm1 | hm2
      · exact joinSep_no_nl pl (fun x hx => plainText_no_nl x (hpl x hx)) hm1
      · revert hm2; decide
    have hl4 : parseYamlLine (lit "projects: [" ++ (joinSep (lit ", ") pl ++ lit "]")) =
        some (lit "projects", YamlValue.listV pl) := by
      rw [line_split_projects, parseYamlLine_kv _ _ (by decide),
        parseYamlValue_flow pl hpl]
      rfl
    by_cases htgnil : tg = []
    · subst htgnil
      set L : List (List Char) :=
        [lit "pattern: " ++ n, lit "category: " ++ c, lit "framework: " ++ f,
         lit "projects: [" ++ (joinSep (lit ", ") pl ++ lit "]")]
        with hLdef
      have hL : ∀ l ∈ L, l ≠ [] ∧ ('\n') ∉ l ∧ l.head? ≠ some '-' := by
        intro l hl
        rw [hLdef] at hl
        simp only [List.mem_cons, List.not_mem_nil, or_false] at hl
        rcases hl with rfl | rfl | rfl | rfl
        · exact header_line_ok _ _ (by decide) (by decide) (by decide) hnnl
        · exact header_line_ok _ _ (by decide) (by decide) (by decide) hcnl
        · exact header_line_ok _ _ (by decide) (by decide) (by decide) hfnl
        · exact header_line_ok _ _ (by decide) (by decide) (by decide) hplnl
      have hdoc : parseYamlDoc (joinSep ['\n'] L) = some
          [(lit "pattern", YamlValue.scalar n),
           (lit "category", YamlValue.scalar c),
           (lit "framework", YamlValue.scalar f),
           (lit "projects", YamlValue.listV pl)] := by
        unfold parseYamlDoc
        rw [splitOnChar_joinSep '\n' L (by simp [hLdef])
          (fun l hl => (hL l hl).2.1)]
        rw [hLdef]
        simp [mapOpt, hl1, hl2, hl3, hl4]
      have hmeta := parseYamlMetadata_p _ n c f pl hdoc
      have heq : patternContent n c f (some pl) [] ct =
          lit "---\n" ++ (joinSep ['\n'] L ++
            (lit "\n---\n" ++ ('\n' :: (ct ++ ['\n'])))) := by
        rw [hLdef]
        simp [patternContent, projectsStr, tagsStr, joinSep,
          lit_split_pat, lit_split_cat, lit_split_fw, lit_split_sep,
          lit_split_close, lit_split_brk, lit_nl, List.append_assoc]
      rw [heq, loadPattern_of_header L ct path _ (by simp [hLdef]) hL hmeta]
      rfl
    · have htgnl : ('\n') ∉ joinSep (lit ", ") tg ++ lit "]" := by
        intro hm
        rcases List.mem_append.mp hm with hm1 | hm2
        · exact joinSep_no_nl tg (fun x hx => plainText_no_nl x (htg x hx)) hm1
        · revert hm2; decide
      have hl5 : parseYamlLine (lit "tags: [" ++ (joinSep (lit ", ") tg ++ lit "]")) =
          some (lit "tags", YamlValue.listV tg) := by
        rw [line_split_tags, parseYamlLine_kv _ _ (by decide),
          parseYamlValue_flow tg htg]
        rfl
      set L : List (List Char) :=
        [lit "pattern: " ++ n, lit "category: " ++ c, lit "framework: " ++ f,
         lit "projects: [" ++ (joinSep (lit ", ") pl ++ lit "]"),
         lit "tags: [" ++ (joinSep (lit ", ") tg ++ lit "]")]
        with hLdef
      have hL : ∀ l ∈ L, l ≠ [] ∧ ('\n') ∉ l ∧ l.head? ≠ some '-' := by
        intro l hl
        rw [hLdef] at hl
        simp only [List.mem_cons, List.not_mem_nil, or_false] at hl
        rcases hl with rfl | rfl | rfl | rfl | rfl
        · exact header_line_ok _ _ (by decide) (by decide) (by decide) hnnl
        · exact header_line_ok _ _ (by decide) (by decide) (by decide) hcnl
        · exact header_line_ok _ _ (by decide) (by decide) (by decide) hfnl
        · exact header_line_ok _ _ (by decide) (by decide) (by decide) hplnl
        · exact header_line_ok _ _ (by decide) (by decide) (by decide) htgnl
      have hdoc : parseYamlDoc (joinSep ['\n'] L) = some
          [(lit "pattern", YamlValue.scalar n),
           (lit "category", YamlValue.scalar c),
           (lit "framework", YamlValue.scalar f),
           (lit "projects", YamlValue.listV pl),
           (lit "tags", YamlValue.listV tg)] := by
        unfold parseYamlDoc
        rw [splitOnChar_joinSep '\n' L (by simp [hLdef])
          (fun l hl => (hL l hl).2.1)]
        rw [hLdef]
        simp [mapOpt, hl1, hl2, hl3, hl4, hl5]
      have hmeta := parseYamlMetadata_pt _ n c f pl tg hdoc
      have heq : patternContent n c f (some pl) tg ct =
          lit "---\n" ++ (joinSep ['\n'] L ++
            (lit "\n---\n" ++ ('\n' :: (ct ++ ['\n'])))) := by
        rw [hLdef]
        simp [patternContent, projectsStr, tagsStr, htgnil, joinSep,
          lit_split_pat, lit_split_cat, lit_split_fw, lit_split_sep,
          lit_split_close, lit_split_brk, lit_nl, List.append_assoc]
      rw [heq, loadPattern_of_header L ct path _ (by simp [hLdef]) hL hmeta]
      rfl

/-- C5 (counterexample): a record written with the single tag `a, b`
parses back with the two tags `a` and `b` — the flow-sequence comma is
not escaped by the Writer, so the round trip does not recover the
written metadata. -/
theorem roundtrip_tag_comma_counterexample :
    (loadPattern (patternContent (lit "n") (lit "c") (lit "f") none
        [lit "a, b"] (lit "x")) (lit "n.md")).map
        (fun p => p.metadata.tags) = some [lit "a", lit "b"] ∧
    [lit "a", lit "b"] ≠ [lit "a, b"] := by decide

/-- Witness for `writer_parser_roundtrip` at a concrete record. -/
theorem writer_parser_roundtrip_witness :
    loadPattern (patternContent (lit "retry") (lit "resilience") (lit "go")
        none [lit "go", lit "retry"] (lit "Body text")) (lit "retry.md") =
      some ⟨⟨lit "retry", lit "resilience", some (lit "go"), [],
        [lit "go", lit "retry"]⟩, trimR (lit "Body text"), lit "retry.md"⟩ :=
  writer_parser_roundtrip (lit "retry") (lit "resilience") (lit "go") none
    [lit "go", lit "retry"] (lit "Body text") (lit "retry.md")
    (by decide) (by decide) (by decide) (fun l h => by cases h) (by decide)

end Grimoire
